import Mathlib

set_option maxHeartbeats 1000000

/-!
Verification of `src/C/dkim-regdom.c` (registered-domain-libs): a shallow
embedding of its public-suffix tree parser (`readTldString`) and of the
domain matcher (`findTldNode`, `concatDomLabel`, `findRegisteredDomain`,
`getRegisteredDomainDropI`, `getRegisteredDomainDrop`, `getRegisteredDomain`).
C strings are modelled as `List Char`; a `NULL` `char *` result is `none`.
-/

/-- One node of the public-suffix lookup tree (C `struct tldnode`): the label
text `dom`, the exception marker `attr` (in C a pointer that is either `NULL`
or the static string `"!"`, modelled as a `Bool`), and the child list
`subnodes` (C keeps `num_children` alongside; here it is `subnodes.length`). -/
inductive TldNode : Type where
  | node (dom : List Char) (attr : Bool) (subnodes : List TldNode)

/-- The `dom` field of a `tldnode`. -/
def TldNode.dom : TldNode → List Char
  | .node d _ _ => d

/-- The `attr` field of a `tldnode` (`true` iff it points at `THIS = "!"`). -/
def TldNode.attr : TldNode → Bool
  | .node _ a _ => a

/-- The `subnodes` field of a `tldnode`. -/
def TldNode.subnodes : TldNode → List TldNode
  | .node _ _ c => c

/-- The static wildcard label `ALL = "*"`. -/
def ALL : List Char := ['*']

/-- Coerce a string literal to the `List Char` representation used throughout. -/
def toL (s : String) : List Char := s.data

/-- The scanning loop of C `findTldNode`: walk the `subnodes` in order; an
exact `strcmp` match returns at once; the first child labelled `"*"` is
remembered in `allNode` and returned if the scan ends with no exact match. -/
def findTldNodeGo (subdom : List Char) : List TldNode → Option TldNode → Option TldNode
  | [], allNode => allNode
  | c :: cs, allNode =>
    if c.dom = subdom then some c
    else
      match allNode with
      | none => findTldNodeGo subdom cs (if c.dom = ALL then some c else none)
      | some a => findTldNodeGo subdom cs (some a)

/-- C `findTldNode`: linear search for `subdom` among `parent`'s children
(and for `"*"` as a fallback). -/
def findTldNode (parent : TldNode) (subdom : List Char) : Option TldNode :=
  findTldNodeGo subdom parent.subnodes none

/-- C `concatDomLabel(dl, du)`: if `dl` is `NULL`, a copy of `du`; otherwise
`dl`, a dot, then `du` (in that order). -/
def concatDomLabel : Option (List Char) → List Char → List Char
  | none, du => du
  | some dl, du => dl ++ '.' :: du

/-- The condition `subNode->num_children == 1 && subNode->subnodes[0]->attr == THIS`
of C `findRegisteredDomain`: the node's only child is an exception node. -/
def isExceptionBoundary (n : TldNode) : Bool :=
  match n.subnodes with
  | [c] => c.attr
  | _ => false

/-- C `findRegisteredDomain`: recursive walk of the label list (top-level
label first) against the tree.  The `[]` case is unreachable in C (the list
head is never `NULL` there); it is mapped to `none`. -/
def findRegisteredDomain (subtree : TldNode) : List (List Char) → Option (List Char)
  | [] => none
  | v :: rest =>
    match findTldNode subtree v with
    | none => some v
    | some subNode =>
      if isExceptionBoundary subNode then some v
      else
        match rest with
        | [] => none
        | _ :: _ =>
          match findRegisteredDomain subNode rest with
          | none => none
          | some fRegDom => some (concatDomLabel (some fRegDom) v)

/-- The token loop of C `getRegisteredDomainDropI`, i.e. `strtok_r` with
delimiter `"."`: `acc` is the token being accumulated; tokens are the maximal
nonempty runs of non-dot characters (empty fields are never produced). -/
def strtokGo : List Char → List Char → List (List Char)
  | [], acc => if acc = [] then [] else [acc]
  | c :: cs, acc =>
    if c = '.' then
      if acc = [] then strtokGo cs []
      else acc :: strtokGo cs []
    else strtokGo cs (acc ++ [c])

/-- All `strtok_r` tokens of a hostname, in source order. -/
def strtokAll (hostname : List Char) : List (List Char) := strtokGo hostname []

/-- The label list built by C `getRegisteredDomainDropI`: each token is pushed
onto the front of the `dlist`, so the final list holds the tokens in reverse
order (top-level domain first). -/
def splitLabels (hostname : List Char) : List (List Char) := (strtokAll hostname).reverse

/-- C `getRegisteredDomainDropI`: split the hostname, walk the tree, and
apply the single-label disposition (`strchr(result, '.')` test, bare-label
and unknown-TLD fallbacks). -/
def getRegisteredDomainDropI (hostname : List Char) (tree : TldNode)
    (drop_unknown : Bool) : Option (List Char) :=
  match splitLabels hostname with
  | [] => none
  | hv :: htail =>
    match findRegisteredDomain tree (hv :: htail) with
    | none => none
    | some result =>
      if '.' ∈ result then some result
      else
        match htail with
        | [] => none
        | hn :: _ =>
          if drop_unknown then none
          else some (concatDomLabel (some hn) hv)

/-- C `getRegisteredDomainDrop` (the `int drop_unknown` flag is modelled as a
`Bool`). -/
def getRegisteredDomainDrop (hostname : List Char) (tree : TldNode)
    (drop_unknown : Bool) : Option (List Char) :=
  getRegisteredDomainDropI hostname tree drop_unknown

/-- C `getRegisteredDomain`: the matcher with `drop_unknown = 0`. -/
def getRegisteredDomain (hostname : List Char) (tree : TldNode) : Option (List Char) :=
  getRegisteredDomainDropI hostname tree false

/-- The tree of claim C1: top-level `ck` with wildcard child `*` whose only
child is the exception node `!www`. -/
def ckTree : TldNode :=
  .node [] false [.node (toL "ck") false [.node (toL "*") false [.node (toL "www") true []]]]

/-- Claim C1: on the `ck`-wildcard-exception tree, `getRegisteredDomain`
returns `"www.ck"` for `"www.ck"` (exception short-circuit), `"foo.ck"` for
`"foo.ck"` (ordinary wildcard path), and `"foo.ck"` for `"a.foo.ck"` (the
matched child's only child being an exception node is the recursion's base
case, returning the current label alone). -/
theorem regdom_exception_shortcircuit_ck :
    getRegisteredDomain (toL "www.ck") ckTree = some (toL "www.ck") ∧
    getRegisteredDomain (toL "foo.ck") ckTree = some (toL "foo.ck") ∧
    getRegisteredDomain (toL "a.foo.ck") ckTree = some (toL "foo.ck") := by
  decide

/-- If no child matches exactly and `allNode` is already set, the scan keeps it. -/
theorem findTldNodeGo_no_exact_some {subdom : List Char} (a : TldNode) :
    ∀ cs : List TldNode, (∀ c ∈ cs, c.dom ≠ subdom) →
      findTldNodeGo subdom cs (some a) = some a := by
  intro cs
  induction cs with
  | nil => intro _; rfl
  | cons c cs ih =>
    intro h
    have hc : c.dom ≠ subdom := h c (List.mem_cons_self c cs)
    simp only [findTldNodeGo, if_neg hc]
    exact ih fun x hx => h x (List.mem_cons_of_mem c hx)

/-- With no exact match and no `allNode` yet, the scan returns the first
wildcard child, if any. -/
theorem findTldNodeGo_no_exact_none {subdom : List Char} :
    ∀ cs : List TldNode, (∀ c ∈ cs, c.dom ≠ subdom) →
      findTldNodeGo subdom cs none = cs.find? (fun c => c.dom == ALL) := by
  intro cs
  induction cs with
  | nil => intro _; rfl
  | cons c cs ih =>
    intro h
    have hc : c.dom ≠ subdom := h c (List.mem_cons_self c cs)
    have hrest : ∀ x ∈ cs, x.dom ≠ subdom := fun x hx => h x (List.mem_cons_of_mem c hx)
    simp only [findTldNodeGo, if_neg hc]
    by_cases hall : c.dom = ALL
    · rw [if_pos hall, findTldNodeGo_no_exact_some c cs hrest,
        List.find?_cons_of_pos _ (by simpa using hall)]
    · rw [if_neg hall, ih hrest, List.find?_cons_of_neg _ (by simpa using hall)]

/-- Whatever the accumulator holds, the scan returns some exactly-matching
child whenever one is present in the list. -/
theorem findTldNodeGo_exact_exists {subdom : List Char} :
    ∀ (cs : List TldNode) (acc : Option TldNode) (c0 : TldNode),
      c0 ∈ cs → c0.dom = subdom →
      ∃ c, findTldNodeGo subdom cs acc = some c ∧ c ∈ cs ∧ c.dom = subdom := by
  intro cs
  induction cs with
  | nil => intro _ c0 hmem; exact absurd hmem (List.not_mem_nil c0)
  | cons c cs ih =>
    intro acc c0 hmem hdom
    by_cases hc : c.dom = subdom
    · exact ⟨c, by simp only [findTldNodeGo, if_pos hc], List.mem_cons_self c cs, hc⟩
    · have hmem' : c0 ∈ cs := by
        rcases List.mem_cons.1 hmem with rfl | h
        · exact absurd hdom hc
        · exact h
      simp only [findTldNodeGo, if_neg hc]
      have step : ∀ acc2 : Option TldNode,
          ∃ c1, findTldNodeGo subdom cs acc2 = some c1 ∧ c1 ∈ c :: cs ∧ c1.dom = subdom := by
        intro acc2
        rcases ih acc2 c0 hmem' hdom with ⟨c1, h1, h2, h3⟩
        exact ⟨c1, h1, List.mem_cons_of_mem c h2, h3⟩
      cases acc with
      | none => by_cases hall : c.dom = ALL
                · rw [if_pos hall]; exact step (some c)
                · rw [if_neg hall]; exact step none
      | some a => exact step (some a)

/-- An exact match is returned by the scan whatever the `allNode` accumulator
holds; with distinct sibling labels the matching child itself is returned. -/
theorem findTldNodeGo_exact_nodup {subdom : List Char} {t : TldNode} :
    ∀ (cs : List TldNode) (acc : Option TldNode), t ∈ cs → t.dom = subdom →
      (cs.map TldNode.dom).Nodup →
      findTldNodeGo subdom cs acc = some t := by
  intro cs
  induction cs with
  | nil => intro _ hmem; exact absurd hmem (List.not_mem_nil t)
  | cons c cs ih =>
    intro acc hmem hdom hnd
    rw [List.map_cons, List.nodup_cons] at hnd
    by_cases hc : c.dom = subdom
    · simp only [findTldNodeGo, if_pos hc]
      rcases List.mem_cons.1 hmem with rfl | hmem'
      · rfl
      · exfalso
        exact hnd.1 (by rw [hc, ← hdom]; exact List.mem_map.2 ⟨t, hmem', rfl⟩)
    · have hmem' : t ∈ cs := by
        rcases List.mem_cons.1 hmem with rfl | h
        · exact absurd hdom hc
        · exact h
      simp only [findTldNodeGo, if_neg hc]
      cases acc with
      | none =>
        by_cases hall : c.dom = ALL
        · rw [if_pos hall]; exact ih (some c) hmem' hdom hnd.2
        · rw [if_neg hall]; exact ih none hmem' hdom hnd.2
      | some a => exact ih (some a) hmem' hdom hnd.2

/-- Claim C6: for every node and label, `findTldNode` returns a child whose
label equals the queried label when one exists (exact match wins even when a
`"*"` sibling is present), otherwise a child labelled `"*"` when present,
and otherwise absent. -/
theorem findTldNode_exact_wildcard_absent (parent : TldNode) (label : List Char) :
    ((∃ c ∈ parent.subnodes, c.dom = label) →
      ∃ c, findTldNode parent label = some c ∧ c ∈ parent.subnodes ∧ c.dom = label) ∧
    ((∀ c ∈ parent.subnodes, c.dom ≠ label) → (∃ c ∈ parent.subnodes, c.dom = ALL) →
      ∃ c, findTldNode parent label = some c ∧ c ∈ parent.subnodes ∧ c.dom = ALL) ∧
    ((∀ c ∈ parent.subnodes, c.dom ≠ label ∧ c.dom ≠ ALL) →
      findTldNode parent label = none) := by
  refine ⟨?_, ?_, ?_⟩
  · rintro ⟨c0, hmem0, hdom0⟩
    exact findTldNodeGo_exact_exists parent.subnodes none c0 hmem0 hdom0
  · rintro hno ⟨c0, hmem0, hdom0⟩
    unfold findTldNode
    rw [findTldNodeGo_no_exact_none _ hno]
    have hsome : (parent.subnodes.find? (fun c => c.dom == ALL)).isSome := by
      rw [List.find?_isSome]
      exact ⟨c0, hmem0, by simpa using hdom0⟩
    rcases Option.isSome_iff_exists.1 hsome with ⟨d, hd⟩
    exact ⟨d, hd, List.mem_of_find?_eq_some hd, by simpa using List.find?_some hd⟩
  · intro h
    unfold findTldNode
    rw [findTldNodeGo_no_exact_none _ (fun c hc => (h c hc).1)]
    exact List.find?_eq_none.2 fun c hc => by simpa using (h c hc).2

/-- A parent with both an exact child `"example"` and a wildcard child, used
as a concrete instance for the lookup claims. -/
def wcParent : TldNode :=
  .node [] false [.node (toL "example") false [], .node ALL false []]

theorem findTldNode_exact_wildcard_absent_witness :
    ∃ c, findTldNode wcParent (toL "example") = some c ∧
      c ∈ wcParent.subnodes ∧ c.dom = toL "example" :=
  (findTldNode_exact_wildcard_absent wcParent (toL "example")).1
    ⟨.node (toL "example") false [], List.mem_cons_self _ _, rfl⟩

/-- Claim C2: with a tree having no rule for top-level label `zzz` (the
one-level lookup at the root finds neither an exact child nor a wildcard),
`"a.zzz"` resolves to the two-label fallback `"a.zzz"` in ordinary mode and
to absent in strict (`drop_unknown`) mode, and the bare label `"zzz"` is
absent in both modes. -/
theorem unknown_tld_fallback_modes (tree : TldNode)
    (h : findTldNode tree (toL "zzz") = none) :
    getRegisteredDomain (toL "a.zzz") tree = some (toL "a.zzz") ∧
    getRegisteredDomainDrop (toL "a.zzz") tree true = none ∧
    getRegisteredDomain (toL "zzz") tree = none ∧
    getRegisteredDomainDrop (toL "zzz") tree true = none := by
  have hs1 : splitLabels (toL "a.zzz") = [toL "zzz", toL "a"] := rfl
  have hs2 : splitLabels (toL "zzz") = [toL "zzz"] := rfl
  have hw1 : findRegisteredDomain tree [toL "zzz", toL "a"] = some (toL "zzz") := by
    unfold findRegisteredDomain
    simp only [h]
  have hw2 : findRegisteredDomain tree [toL "zzz"] = some (toL "zzz") := by
    unfold findRegisteredDomain
    simp only [h]
  have hdot : ¬ ('.' ∈ toL "zzz") := by decide
  unfold getRegisteredDomain getRegisteredDomainDrop getRegisteredDomainDropI
  simp only [hs1, hs2, hw1, hw2, if_neg hdot]
  refine ⟨by decide, by simp, by simp, by simp⟩

theorem unknown_tld_fallback_modes_witness :
    getRegisteredDomain (toL "a.zzz") (TldNode.node [] false []) = some (toL "a.zzz") :=
  (unknown_tld_fallback_modes (TldNode.node [] false []) rfl).1

/-- Claim C3: for every tree whose root has a childless child labelled
`"com"` (sibling labels being distinct, as the data model requires),
`"www.example.com"` and `"example.com"` both resolve to `"example.com"`,
and the bare `"com"` — fully consumed by the suffix rules with nothing
registrable beneath — is absent. -/
theorem com_leaf_registered_domains (tree : TldNode) (a : Bool)
    (hmem : TldNode.node (toL "com") a [] ∈ tree.subnodes)
    (hnd : (tree.subnodes.map TldNode.dom).Nodup) :
    getRegisteredDomain (toL "www.example.com") tree = some (toL "example.com") ∧
    getRegisteredDomain (toL "example.com") tree = some (toL "example.com") ∧
    getRegisteredDomain (toL "com") tree = none := by
  have hfind : findTldNode tree (toL "com") = some (TldNode.node (toL "com") a []) :=
    findTldNodeGo_exact_nodup tree.subnodes none hmem rfl hnd
  have hexc : isExceptionBoundary (TldNode.node (toL "com") a []) = false := rfl
  have hdeep1 : findRegisteredDomain (TldNode.node (toL "com") a [])
      [toL "example", toL "www"] = some (toL "example") := rfl
  have hdeep2 : findRegisteredDomain (TldNode.node (toL "com") a [])
      [toL "example"] = some (toL "example") := rfl
  have hs1 : splitLabels (toL "www.example.com") = [toL "com", toL "example", toL "www"] := rfl
  have hs2 : splitLabels (toL "example.com") = [toL "com", toL "example"] := rfl
  have hs3 : splitLabels (toL "com") = [toL "com"] := rfl
  have hw1 : findRegisteredDomain tree [toL "com", toL "example", toL "www"] =
      some (toL "example.com") := by
    unfold findRegisteredDomain
    simp only [hfind, hexc, hdeep1, Bool.false_eq_true, if_false]
    decide
  have hw2 : findRegisteredDomain tree [toL "com", toL "example"] =
      some (toL "example.com") := by
    unfold findRegisteredDomain
    simp only [hfind, hexc, hdeep2, Bool.false_eq_true, if_false]
    decide
  have hw3 : findRegisteredDomain tree [toL "com"] = none := by
    unfold findRegisteredDomain
    simp only [hfind, hexc, Bool.false_eq_true, if_false]
  unfold getRegisteredDomain getRegisteredDomainDropI
  simp only [hs1, hs2, hs3, hw1, hw2, hw3]
  refine ⟨by rw [if_pos (by decide)], by rw [if_pos (by decide)], by simp⟩

theorem com_leaf_registered_domains_witness :
    getRegisteredDomain (toL "www.example.com")
      (TldNode.node [] false [TldNode.node (toL "com") false []]) =
      some (toL "example.com") :=
  (com_leaf_registered_domains (TldNode.node [] false [TldNode.node (toL "com") false []])
    false (List.mem_cons_self _ _) (by decide)).1

/-- The childless `com` rule node. -/
def comLeaf : TldNode := .node (toL "com") false []

/-- A root tree whose only rule is the leaf `com`. -/
def comTree : TldNode := .node [] false [comLeaf]

/-- Claim C5, counterexample: with the `com`-leaf tree and label list
`[com, example]`, the recursive call on the matched child returns the
non-absent string `"example"`, yet the walk returns `"example.com"`, which
is not `labels.head ++ "." ++ deeper = "com.example"` — the claim states the
concatenation in the wrong order. -/
theorem walk_concat_order_refuted :
    findTldNode comTree (toL "com") = some comLeaf ∧
    findRegisteredDomain comLeaf [toL "example"] = some (toL "example") ∧
    findRegisteredDomain comTree [toL "com", toL "example"] = some (toL "example.com") ∧
    findRegisteredDomain comTree [toL "com", toL "example"] ≠
      some (toL "com" ++ '.' :: toL "example") := by
  refine ⟨rfl, rfl, rfl, ?_⟩
  intro h
  exact absurd (Option.some.inj h) (by decide)

/-- Claim C5, amended: in the recursive suffix walk, whenever the recursive
call on the matched child and the remaining labels returns a non-absent
string `deeper`, the walk returns `deeper ++ "." ++ labels.head` (the deeper
result, then a dot, then the current top-level-side label — the concatenation
is `concatDomLabel(fRegDom, dom->val)`); if `deeper` is absent, absent is
propagated. -/
theorem walk_concat_order_amended (subtree subNode : TldNode) (v : List Char)
    (rest : List (List Char)) (hr : rest ≠ [])
    (hfind : findTldNode subtree v = some subNode)
    (hexc : isExceptionBoundary subNode = false) :
    (∀ d, findRegisteredDomain subNode rest = some d →
      findRegisteredDomain subtree (v :: rest) = some (d ++ '.' :: v)) ∧
    (findRegisteredDomain subNode rest = none →
      findRegisteredDomain subtree (v :: rest) = none) := by
  match rest, hr with
  | r :: rs, _ =>
    constructor
    · intro d hd
      unfold findRegisteredDomain
      simp only [hfind, hexc, Bool.false_eq_true, if_false, hd, concatDomLabel]
    · intro hd
      unfold findRegisteredDomain
      simp only [hfind, hexc, Bool.false_eq_true, if_false, hd]

theorem walk_concat_order_amended_witness :
    findRegisteredDomain comTree [toL "com", toL "example"] =
      some (toL "example" ++ '.' :: toL "com") :=
  (walk_concat_order_amended comTree comLeaf (toL "com") [toL "example"]
    (by decide) rfl rfl).1 (toL "example") rfl

/-- Claim C9: whenever `getRegisteredDomainDrop` returns a string, that
string contains a `.` — a single-label resolution is either replaced by the
two-label fallback (which always contains a dot) or converted to absent
before being returned. -/
theorem registered_domain_has_dot (hostname : List Char) (tree : TldNode)
    (drop_unknown : Bool) (r : List Char)
    (h : getRegisteredDomainDrop hostname tree drop_unknown = some r) :
    '.' ∈ r := by
  unfold getRegisteredDomainDrop getRegisteredDomainDropI at h
  split at h
  · exact absurd h (by simp)
  · split at h
    · exact absurd h (by simp)
    · split at h
      · rename_i hdot
        rw [← Option.some.inj h]
        exact hdot
      · split at h
        · exact absurd h (by simp)
        · split at h
          · exact absurd h (by simp)
          · rw [← Option.some.inj h]
            simp [concatDomLabel]

theorem registered_domain_has_dot_witness : '.' ∈ toL "a.zzz" :=
  registered_domain_has_dot (toL "a.zzz") (TldNode.node [] false []) false (toL "a.zzz") rfl

/-- The split step as the spec words it (for comparison with the code's
`strtok_r`-based split): split on `.` into labels, preserving empty labels
as literal empty strings — consecutive, leading, or trailing separators are
not collapsed. -/
def splitPreservingEmpties : List Char → List (List Char)
  | [] => [[]]
  | c :: cs =>
    if c = '.' then [] :: splitPreservingEmpties cs
    else
      match splitPreservingEmpties cs with
      | [] => [[c]]
      | t :: ts => (c :: t) :: ts

theorem splitPreservingEmpties_ne_nil (l : List Char) : splitPreservingEmpties l ≠ [] := by
  cases l with
  | nil => simp [splitPreservingEmpties]
  | cons c cs =>
    unfold splitPreservingEmpties
    by_cases hc : c = '.'
    · simp [hc]
    · rw [if_neg hc]
      rcases splitPreservingEmpties cs with _ | ⟨t, ts⟩ <;> simp

/-- Unfolding step of `strtokGo` at a dot. -/
theorem strtokGo_cons_dot (cs : List Char) (acc : List Char) :
    strtokGo ('.' :: cs) acc =
      if acc = [] then strtokGo cs [] else acc :: strtokGo cs [] := rfl

/-- Unfolding step of `strtokGo` at an ordinary character. -/
theorem strtokGo_cons_ne (c : Char) (hc : c ≠ '.') (cs : List Char) (acc : List Char) :
    strtokGo (c :: cs) acc = strtokGo cs (acc ++ [c]) := by
  conv_lhs => rw [strtokGo]
  rw [if_neg hc]

/-- The `strtok_r` loop relates to the empty-preserving split: the pending
accumulator is glued onto the first field, and empty fields are dropped. -/
theorem strtokGo_eq_filter (l : List Char) :
    ∀ acc : List Char,
      strtokGo l acc =
        (if acc ++ (splitPreservingEmpties l).headI = [] then []
          else [acc ++ (splitPreservingEmpties l).headI]) ++
        ((splitPreservingEmpties l).tail.filter (fun x => !x.isEmpty)) := by
  induction l with
  | nil =>
    intro acc
    simp [strtokGo, splitPreservingEmpties]
  | cons c cs ih =>
    intro acc
    rcases hs : splitPreservingEmpties cs with _ | ⟨h, ts⟩
    · exact absurd hs (splitPreservingEmpties_ne_nil cs)
    by_cases hc : c = '.'
    · subst hc
      have hspec : splitPreservingEmpties ('.' :: cs) = [] :: h :: ts := by
        unfold splitPreservingEmpties
        rw [if_pos rfl, hs]
      have hgo : strtokGo cs [] =
          (if h = [] then [] else [h]) ++ ts.filter (fun x => !x.isEmpty) := by
        rw [ih [], hs]
        simp
      rw [strtokGo_cons_dot, hspec]
      simp only [List.headI_cons, List.tail_cons, List.append_nil]
      by_cases hacc : acc = []
      · rw [if_pos hacc, if_pos hacc, hgo]
        by_cases hh : h = [] <;> simp [List.filter_cons, hh, List.isEmpty_iff]
      · rw [if_neg hacc, if_neg hacc, hgo]
        by_cases hh : h = [] <;> simp [List.filter_cons, hh, List.isEmpty_iff]
    · have hspec : splitPreservingEmpties (c :: cs) = (c :: h) :: ts := by
        unfold splitPreservingEmpties
        rw [if_neg hc, hs]
      rw [strtokGo_cons_ne c hc, ih (acc ++ [c]), hs, hspec]
      simp only [List.headI_cons, List.tail_cons]
      have hne : ¬ (acc ++ [c]) ++ h = [] := by simp
      have hne2 : ¬ acc ++ c :: h = [] := by simp
      rw [if_neg hne, if_neg hne2]
      simp

/-- `strtok_r` tokenisation equals the empty-preserving split with empty
fields removed. -/
theorem strtokAll_eq_filter (l : List Char) :
    strtokAll l = (splitPreservingEmpties l).filter (fun x => !x.isEmpty) := by
  unfold strtokAll
  rw [strtokGo_eq_filter l []]
  rcases hs : splitPreservingEmpties l with _ | ⟨h, ts⟩
  · exact absurd hs (splitPreservingEmpties_ne_nil l)
  · simp only [List.headI_cons, List.tail_cons, List.nil_append, List.filter_cons]
    by_cases hh : h = []
    · simp [hh]
    · simp [hh, List.isEmpty_iff]

/-- Claim C4, counterexample: for hostname `"a..b"`, the split claimed by the
spec — empty labels preserved, then reversed — would be `["b", "", "a"]`,
but the code's `strtok_r`-based split collapses the empty label and yields
`["b", "a"]`. -/
theorem split_preserving_empties_refuted :
    splitLabels (toL "a..b") = [toL "b", toL "a"] ∧
    (splitPreservingEmpties (toL "a..b")).reverse = [toL "b", [], toL "a"] ∧
    splitLabels (toL "a..b") ≠ (splitPreservingEmpties (toL "a..b")).reverse := by
  decide

/-- Claim C4, amended: the matcher's split step splits on `.` and discards
empty labels (consecutive, leading, or trailing separators produce no
tokens, per `strtok` semantics), and produces the label list reversed so it
runs from the top-level domain first to the most specific label last. -/
theorem splitLabels_drops_empty_labels (hostname : List Char) :
    splitLabels hostname =
      ((splitPreservingEmpties hostname).filter (fun t => !t.isEmpty)).reverse := by
  unfold splitLabels
  rw [strtokAll_eq_filter]

/-- Join labels back with `.` separators. -/
def joinDot : List (List Char) → List Char
  | [] => []
  | [t] => t
  | t :: ts => t ++ '.' :: joinDot ts

/-- A hostname with all empty labels removed: leading dots, trailing dots,
and consecutive dots collapsed. -/
def removeEmptyLabels (hostname : List Char) : List Char :=
  joinDot ((splitPreservingEmpties hostname).filter (fun t => !t.isEmpty))

/-- No field of the empty-preserving split contains a dot. -/
theorem splitPreservingEmpties_no_dot :
    ∀ (l : List Char), ∀ t ∈ splitPreservingEmpties l, '.' ∉ t := by
  intro l
  induction l with
  | nil =>
    intro t ht
    simp only [splitPreservingEmpties, List.mem_singleton] at ht
    simp [ht]
  | cons c cs ih =>
    intro t ht
    by_cases hc : c = '.'
    · subst hc
      have hspec : splitPreservingEmpties ('.' :: cs) = [] :: splitPreservingEmpties cs := by
        conv_lhs => rw [splitPreservingEmpties]
        rw [if_pos rfl]
      rw [hspec, List.mem_cons] at ht
      rcases ht with h1 | h2
      · subst h1
        simp
      · exact ih t h2
    · cases hs : splitPreservingEmpties cs with
      | nil => exact absurd hs (splitPreservingEmpties_ne_nil cs)
      | cons h ts =>
        have hspec : splitPreservingEmpties (c :: cs) = (c :: h) :: ts := by
          unfold splitPreservingEmpties
          rw [if_neg hc, hs]
        rw [hspec, List.mem_cons] at ht
        rcases ht with rfl | ht
        · intro hmem
          rcases List.mem_cons.1 hmem with heq | hmem'
          · exact hc heq.symm
          · exact ih h (hs ▸ List.mem_cons_self h ts) hmem'
        · exact ih t (hs ▸ List.mem_cons_of_mem h ht)

/-- Scanning a dot-free block appends it to the pending accumulator. -/
theorem strtokGo_dotfree_append :
    ∀ (t rest acc : List Char), (∀ c ∈ t, c ≠ '.') →
      strtokGo (t ++ rest) acc = strtokGo rest (acc ++ t) := by
  intro t
  induction t with
  | nil => intro rest acc _; simp
  | cons c t ih =>
    intro rest acc h
    have hc : c ≠ '.' := h c (List.mem_cons_self c t)
    rw [List.cons_append, strtokGo_cons_ne c hc, ih rest (acc ++ [c])
      (fun x hx => h x (List.mem_cons_of_mem c hx))]
    simp

/-- Tokenising a dot-joined list of nonempty dot-free labels recovers it. -/
theorem strtokAll_joinDot :
    ∀ ts : List (List Char), (∀ t ∈ ts, t ≠ [] ∧ ∀ c ∈ t, c ≠ '.') →
      strtokAll (joinDot ts) = ts := by
  intro ts
  induction ts with
  | nil => intro _; rfl
  | cons t ts ih =>
    intro h
    have ht := h t (List.mem_cons_self t ts)
    have hts := fun x hx => h x (List.mem_cons_of_mem t hx)
    cases ts with
    | nil =>
      show strtokAll (joinDot [t]) = [t]
      unfold strtokAll joinDot
      rw [← List.append_nil t, strtokGo_dotfree_append t [] [] ht.2]
      simp only [strtokGo, List.nil_append, List.append_nil]
      rw [if_neg ht.1]
    | cons t2 ts2 =>
      show strtokAll (t ++ '.' :: joinDot (t2 :: ts2)) = t :: t2 :: ts2
      unfold strtokAll
      rw [strtokGo_dotfree_append t ('.' :: joinDot (t2 :: ts2)) [] ht.2,
        List.nil_append, strtokGo_cons_dot]
      rw [if_neg ht.1]
      have := ih hts
      unfold strtokAll at this
      rw [this]

/-- A hostname consisting only of dots has no tokens. -/
theorem strtokAll_all_dots :
    ∀ l : List Char, (∀ c ∈ l, c = '.') → strtokAll l = [] := by
  intro l
  induction l with
  | nil => intro _; rfl
  | cons c cs ih =>
    intro h
    have hc : c = '.' := h c (List.mem_cons_self c cs)
    subst hc
    unfold strtokAll
    rw [strtokGo_cons_dot, if_pos rfl]
    exact ih fun x hx => h x (List.mem_cons_of_mem _ hx)

/-- Claim C10: the matcher's result is invariant under removing all empty
labels from the hostname (it only ever sees the `strtok_r` tokens); in
particular a hostname that is empty or consists only of dots yields absent
in both modes. -/
theorem regdom_ignores_empty_labels (hostname : List Char) (tree : TldNode)
    (drop_unknown : Bool) :
    getRegisteredDomainDrop (removeEmptyLabels hostname) tree drop_unknown =
      getRegisteredDomainDrop hostname tree drop_unknown ∧
    ((∀ c ∈ hostname, c = '.') →
      getRegisteredDomainDrop hostname tree drop_unknown = none) := by
  constructor
  · have hprops : ∀ t ∈ (splitPreservingEmpties hostname).filter (fun t => !t.isEmpty),
        t ≠ [] ∧ ∀ c ∈ t, c ≠ '.' := by
      intro t ht
      rcases List.mem_filter.1 ht with ⟨hmem, hne⟩
      refine ⟨by simpa [List.isEmpty_iff] using hne, ?_⟩
      intro c hc heq
      exact splitPreservingEmpties_no_dot hostname t hmem (heq ▸ hc)
    have htok : strtokAll (removeEmptyLabels hostname) = strtokAll hostname := by
      unfold removeEmptyLabels
      rw [strtokAll_joinDot _ hprops, ← strtokAll_eq_filter]
    unfold getRegisteredDomainDrop getRegisteredDomainDropI splitLabels
    rw [htok]
  · intro hall
    have hnil : strtokAll hostname = [] := strtokAll_all_dots hostname hall
    unfold getRegisteredDomainDrop getRegisteredDomainDropI splitLabels
    rw [hnil]
    simp

theorem regdom_ignores_empty_labels_witness :
    getRegisteredDomainDrop (removeEmptyLabels (toL "a..b")) comTree false =
      getRegisteredDomainDrop (toL "a..b") comTree false ∧
    getRegisteredDomainDrop (toL "..") comTree false = none :=
  ⟨(regdom_ignores_empty_labels (toL "a..b") comTree false).1,
    (regdom_ignores_empty_labels (toL "..") comTree false).2 (by decide)⟩

/-- The C read `s[pos]`.  Out-of-range reads are undefined behaviour in C and
unreachable on the well-formed inputs of the theorems below; they yield the
NUL character here. -/
def chAt (s : List Char) (pos : Nat) : Char := s.getD pos (Char.ofNat 0)

/-- The digit-accumulating core of C `atoi`.  The encoded child counts are
plain decimal digit runs, so `atoi`'s sign and leading-whitespace handling
never triggers on them and is not modelled. -/
def digitsVal : List Char → Nat → Nat
  | [], acc => acc
  | c :: cs, acc => if c.isDigit then digitsVal cs (acc * 10 + (c.toNat - 48)) else acc

/-- C `atoi` on the count substring between `(` and `:`. -/
def atoiNat (l : List Char) : Nat := digitsVal l 0

mutual
/-- State 0 of C `readTldString` (general read): scan label characters,
record `attr = THIS` on `!`, and on a structural delimiter store the label
`s[start .. pos)` (one character shorter when `attr` is set).  A `,` or `)`
returns the current position; a `(` switches to state 1 with `start = pos`.
The do-while loop re-checks `pos < len` after each increment.  `fuel` bounds
the number of machine steps — the C loop has no such bound, and each lemma
below supplies enough fuel for the exhaustion branches to be unreachable. -/
def rts0 (fuel : Nat) (s : List Char) (len start pos : Nat) (attr : Bool) :
    TldNode × Nat :=
  match fuel with
  | 0 => (TldNode.node [] attr [], pos)
  | fuel + 1 =>
    let c := chAt s pos
    if c = ',' ∨ c = ')' ∨ c = '(' then
      let lenc := if attr then pos - start - 1 else pos - start
      let dom := (s.drop start).take lenc
      if c = '(' then
        if pos + 1 < len then rts1 fuel s len pos (pos + 1) dom attr
        else (TldNode.node dom attr [], pos + 1)
      else (TldNode.node dom attr [], pos)
    else
      let attr2 := if c = '!' then true else attr
      if pos + 1 < len then rts0 fuel s len start (pos + 1) attr2
      else (TldNode.node [] attr2 [], pos + 1)

/-- State 1 of C `readTldString` (reading the child count): scan up to `:`,
`atoi` the digits after the `(` at `start`, then parse that many children,
each starting one past the previous cursor, and return one past the final
cursor. -/
def rts1 (fuel : Nat) (s : List Char) (len start pos : Nat) (dom : List Char)
    (attr : Bool) : TldNode × Nat :=
  match fuel with
  | 0 => (TldNode.node dom attr [], pos)
  | fuel + 1 =>
    let c := chAt s pos
    if c = ':' then
      let num := atoiNat ((s.drop (start + 1)).take (pos - start - 1))
      let r := rtsChildren fuel s len num pos
      (TldNode.node dom attr r.1, r.2 + 1)
    else
      if pos + 1 < len then rts1 fuel s len start (pos + 1) dom attr
      else (TldNode.node dom attr [], pos + 1)

/-- The children `for` loop of C `readTldString`: parse `num` nodes, each
from `pos + 1` where `pos` is the cursor returned for the previous one. -/
def rtsChildren (fuel : Nat) (s : List Char) (len num pos : Nat) :
    List TldNode × Nat :=
  match fuel with
  | 0 => ([], pos)
  | fuel + 1 =>
    match num with
    | 0 => ([], pos)
    | num + 1 =>
      let r := rts0 fuel s len (pos + 1) (pos + 1) false
      let rest := rtsChildren fuel s len num r.2
      (r.1 :: rest.1, rest.2)
end

/-- C `readTldString(node, s, len, pos)`: the node is zeroed (`attr` clear)
and scanning starts in state 0 with `start = pos`.  Returns the parsed node
together with the C return value (the final cursor). -/
def readTldString (fuel : Nat) (s : List Char) (len pos : Nat) : TldNode × Nat :=
  rts0 fuel s len pos pos false

/-- Decimal digits of `n` (most significant first), accumulator-style; the
explicit fuel makes the recursion structural so that it evaluates inside the
kernel, and `fuel > n` always suffices. -/
def natDigitsAux : Nat → Nat → List Char → List Char
  | 0, _, acc => acc
  | fuel + 1, n, acc =>
    if n < 10 then Nat.digitChar n :: acc
    else natDigitsAux fuel (n / 10) (Nat.digitChar (n % 10) :: acc)

/-- The decimal digit string of `n`, most significant digit first. -/
def natDigits (n : Nat) : List Char := natDigitsAux (n + 1) n []

/-- Characters allowed in a well-formed label: anything but the structural
delimiters and the exception marker. -/
def plainChar (c : Char) : Bool :=
  !(c == ',' || c == '(' || c == ')' || c == '!')

mutual
/-- The canonical encoding of one rule node, following the spec grammar
`node := label-chars ['!'] [ '(' child-count ':' node (',' node)* ')' ]`. -/
def serNode : TldNode → List Char
  | .node dom attr children =>
    dom ++ (if attr then ['!'] else []) ++
      (match children with
       | [] => []
       | _ :: _ =>
         '(' :: (natDigits children.length ++ ':' :: (serChildren children ++ [')'])))

/-- The encoding of a sibling list, `,`-separated. -/
def serChildren : List TldNode → List Char
  | [] => []
  | [c] => serNode c
  | c :: cs => serNode c ++ ',' :: serChildren cs
end

/-- The optional parenthesized child block of a node's encoding. -/
def serChildBlock : List TldNode → List Char
  | [] => []
  | cs => '(' :: (natDigits cs.length ++ ':' :: (serChildren cs ++ [')']))

theorem serNode_eq (dom : List Char) (attr : Bool) (cs : List TldNode) :
    serNode (.node dom attr cs) =
      dom ++ (if attr then ['!'] else []) ++ serChildBlock cs := by
  cases cs <;> rfl

mutual
/-- Well-formedness of an encodable node: the label consists of plain
characters only, and the children are well-formed. -/
def wfNode : TldNode → Bool
  | .node dom _ children => dom.all plainChar && wfChildren children

/-- Well-formedness of a list of nodes. -/
def wfChildren : List TldNode → Bool
  | [] => true
  | c :: cs => wfNode c && wfChildren cs
end

/-- Split a substring-layout fact along an append. -/
theorem take_eq_append_split {s : List Char} {pos : Nat} {A B AB : List Char}
    (hAB : AB = A ++ B) (h : (s.drop pos).take AB.length = AB) :
    (s.drop pos).take A.length = A ∧ (s.drop (pos + A.length)).take B.length = B := by
  subst hAB
  constructor
  · have h1 := congrArg (List.take A.length) h
    rw [List.take_take, List.take_left, List.length_append,
      Nat.min_eq_left (Nat.le_add_right _ _)] at h1
    exact h1
  · have h2 := congrArg (List.drop A.length) h
    rw [List.drop_take, List.drop_drop, List.drop_left, List.length_append] at h2
    have hlen : A.length + B.length - A.length = B.length := by omega
    rw [hlen] at h2
    exact h2

/-- A singleton substring-layout fact pins down a character. -/
theorem chAt_of_take_one {s : List Char} {pos : Nat} {c : Char}
    (h : (s.drop pos).take 1 = [c]) : chAt s pos = c := by
  have hlen : (s.drop pos) ≠ [] := by
    intro hnil
    rw [hnil] at h
    exact absurd h (by simp)
  have hpos : pos < s.length := by
    by_contra hge
    exact hlen (List.drop_of_length_le (by omega))
  have h0 : (s.drop pos)[0]? = some c := by
    cases hd : s.drop pos with
    | nil => exact absurd hd hlen
    | cons a t =>
      rw [hd] at h
      simp only [List.take_succ_cons, List.take_zero] at h
      cases h
      simp
  rw [List.getElem?_drop, Nat.add_zero] at h0
  unfold chAt
  simp [List.getD, h0]

/-- A character pinned to `,`, `)`, `(`, `:` or `!` is a real in-bounds read:
those are not the NUL default. -/
theorem chAt_lt_length {s : List Char} {pos : Nat} {c : Char}
    (h : chAt s pos = c) (hc : c ≠ Char.ofNat 0) : pos < s.length := by
  by_contra hge
  unfold chAt at h
  rw [List.getD_eq_default _ _ (by omega)] at h
  exact hc h.symm

/-- A layout fact forces the substring to fit inside the string. -/
theorem take_eq_le_length {s : List Char} {pos : Nat} {A : List Char}
    (h : (s.drop pos).take A.length = A) : A.length ≤ s.length - pos := by
  have := congrArg List.length h
  rw [List.length_take, List.length_drop] at this
  omega

theorem natDigitsAux_append :
    ∀ (fuel n : Nat) (acc : List Char),
      natDigitsAux fuel n acc = natDigitsAux fuel n [] ++ acc := by
  intro fuel
  induction fuel with
  | zero => intro n acc; rfl
  | succ fuel ih =>
    intro n acc
    by_cases h : n < 10
    · simp only [natDigitsAux, if_pos h]
      simp
    · simp only [natDigitsAux, if_neg h]
      rw [ih (n / 10) (Nat.digitChar (n % 10) :: acc), ih (n / 10) [Nat.digitChar (n % 10)]]
      simp

theorem natDigitsAux_fuel :
    ∀ (f1 f2 n : Nat) (acc : List Char), n < f1 → n < f2 →
      natDigitsAux f1 n acc = natDigitsAux f2 n acc := by
  intro f1
  induction f1 with
  | zero => intro f2 n acc h1 _; omega
  | succ f1 ih =>
    intro f2 n acc h1 h2
    cases f2 with
    | zero => omega
    | succ f2 =>
      by_cases h : n < 10
      · simp only [natDigitsAux, if_pos h]
      · simp only [natDigitsAux, if_neg h]
        have hdiv : n / 10 < n := Nat.div_lt_self (by omega) (by omega)
        exact ih f2 (n / 10) _ (by omega) (by omega)

theorem natDigits_lt_ten {n : Nat} (h : n < 10) : natDigits n = [Nat.digitChar n] := by
  unfold natDigits natDigitsAux
  rw [if_pos h]

theorem natDigits_ge_ten {n : Nat} (h : ¬ n < 10) :
    natDigits n = natDigits (n / 10) ++ [Nat.digitChar (n % 10)] := by
  have hdiv : n / 10 < n := Nat.div_lt_self (by omega) (by omega)
  unfold natDigits
  conv_lhs => rw [natDigitsAux]
  rw [if_neg h, natDigitsAux_append,
    natDigitsAux_fuel n (n / 10 + 1) (n / 10) [] (by omega) (by omega)]

theorem digitChar_isDigit {d : Nat} (h : d < 10) : (Nat.digitChar d).isDigit = true := by
  interval_cases d <;> decide

theorem digitChar_toNat {d : Nat} (h : d < 10) : (Nat.digitChar d).toNat - 48 = d := by
  interval_cases d <;> decide

theorem natDigits_all_digits : ∀ n : Nat, ∀ c ∈ natDigits n, c.isDigit = true := by
  intro n
  induction n using Nat.strong_induction_on with
  | _ n ih =>
    by_cases h : n < 10
    · rw [natDigits_lt_ten h]
      intro c hc
      rw [List.mem_singleton] at hc
      subst hc
      exact digitChar_isDigit h
    · rw [natDigits_ge_ten h]
      intro c hc
      rcases List.mem_append.1 hc with h1 | h2
      · exact ih (n / 10) (Nat.div_lt_self (by omega) (by omega)) c h1
      · rw [List.mem_singleton] at h2
        subst h2
        exact digitChar_isDigit (Nat.mod_lt n (by omega))

theorem isDigit_ne_colon {c : Char} (h : c.isDigit = true) : ¬ c = ':' := by
  rintro rfl
  exact absurd h (by decide)

theorem digitsVal_append (A : List Char) :
    ∀ (B : List Char) (acc : Nat), (∀ c ∈ A, c.isDigit = true) →
      digitsVal (A ++ B) acc = digitsVal B (digitsVal A acc) := by
  induction A with
  | nil => intro B acc _; rfl
  | cons c A ih =>
    intro B acc h
    have hc := h c (List.mem_cons_self c A)
    simp only [List.cons_append, digitsVal, if_pos hc]
    exact ih B _ (fun x hx => h x (List.mem_cons_of_mem c hx))

theorem digitsVal_natDigits :
    ∀ n acc : Nat, digitsVal (natDigits n) acc = acc * 10 ^ (natDigits n).length + n := by
  intro n
  induction n using Nat.strong_induction_on with
  | _ n ih =>
    intro acc
    by_cases h : n < 10
    · rw [natDigits_lt_ten h]
      simp only [digitsVal, if_pos (digitChar_isDigit h), digitChar_toNat h]
      simp [Nat.mul_comm]
    · have hdiv : n / 10 < n := Nat.div_lt_self (by omega) (by omega)
      have hmod : n % 10 < 10 := Nat.mod_lt n (by omega)
      rw [natDigits_ge_ten h, digitsVal_append _ _ _ (natDigits_all_digits (n / 10)),
        ih (n / 10) hdiv acc]
      simp only [digitsVal, if_pos (digitChar_isDigit hmod), digitChar_toNat hmod,
        List.length_append, List.length_singleton]
      rw [pow_succ]
      generalize (10 : Nat) ^ (natDigits (n / 10)).length = X
      have h1 : n / 10 * 10 + n % 10 = n := by omega
      have h2 : (acc * X + n / 10) * 10 + n % 10 = acc * (X * 10) + (n / 10 * 10 + n % 10) := by
        ring
      rw [h2, h1]

theorem atoiNat_natDigits (n : Nat) : atoiNat (natDigits n) = n := by
  unfold atoiNat
  rw [digitsVal_natDigits n 0]
  simp

theorem rts0_delim_ret {s : List Char} {pos : Nat} (fuel len start : Nat) (attr : Bool)
    (hc : chAt s pos = ',' ∨ chAt s pos = ')') :
    rts0 (fuel + 1) s len start pos attr =
      (TldNode.node ((s.drop start).take (if attr then pos - start - 1 else pos - start))
        attr [], pos) := by
  have hcor : chAt s pos = ',' ∨ chAt s pos = ')' ∨ chAt s pos = '(' := by
    rcases hc with h | h
    · exact Or.inl h
    · exact Or.inr (Or.inl h)
  have hnp : ¬ chAt s pos = '(' := by
    rcases hc with h | h <;> rw [h] <;> decide
  simp only [rts0]
  rw [if_pos hcor, if_neg hnp]

theorem rts0_lparen_step {s : List Char} {pos : Nat} (fuel len start : Nat) (attr : Bool)
    (hc : chAt s pos = '(') (hlt : pos + 1 < len) :
    rts0 (fuel + 1) s len start pos attr =
      rts1 fuel s len pos (pos + 1)
        ((s.drop start).take (if attr then pos - start - 1 else pos - start)) attr := by
  have hcor : chAt s pos = ',' ∨ chAt s pos = ')' ∨ chAt s pos = '(' := Or.inr (Or.inr hc)
  simp only [rts0]
  rw [if_pos hcor, if_pos hc, if_pos hlt]

theorem rts0_plain_step {s : List Char} {pos : Nat} (fuel len start : Nat) (attr : Bool)
    (hc : plainChar (chAt s pos) = true) (hlt : pos + 1 < len) :
    rts0 (fuel + 1) s len start pos attr = rts0 fuel s len start (pos + 1) attr := by
  simp only [plainChar, Bool.not_eq_true', Bool.or_eq_false_iff, beq_eq_false_iff_ne,
    ne_eq] at hc
  have h1 : ¬ (chAt s pos = ',' ∨ chAt s pos = ')' ∨ chAt s pos = '(') := by
    rintro (h | h | h)
    · exact hc.1.1.1 h
    · exact hc.1.2 h
    · exact hc.1.1.2 h
  have h2 : ¬ chAt s pos = '!' := hc.2
  simp only [rts0]
  rw [if_neg h1, if_neg h2, if_pos hlt]

theorem rts0_bang_step {s : List Char} {pos : Nat} (fuel len start : Nat) (attr : Bool)
    (hc : chAt s pos = '!') (hlt : pos + 1 < len) :
    rts0 (fuel + 1) s len start pos attr = rts0 fuel s len start (pos + 1) true := by
  have h1 : ¬ (chAt s pos = ',' ∨ chAt s pos = ')' ∨ chAt s pos = '(') := by
    rw [hc]
    decide
  simp only [rts0]
  rw [if_neg h1, if_pos hc, if_pos hlt]

theorem rts0_scan_block {s : List Char} :
    ∀ (A : List Char) (fuel start pos : Nat) (attr : Bool),
      (s.drop pos).take A.length = A →
      A.all plainChar = true →
      pos + A.length < s.length →
      A.length ≤ fuel →
      rts0 fuel s s.length start pos attr =
        rts0 (fuel - A.length) s s.length start (pos + A.length) attr := by
  intro A
  induction A with
  | nil => intro fuel start pos attr _ _ _ _; simp
  | cons c A ih =>
    intro fuel start pos attr hlay hall hlen hfuel
    obtain ⟨f, rfl⟩ : ∃ f, fuel = f + 1 := ⟨fuel - 1, by simp at hfuel ⊢; omega⟩
    obtain ⟨h1, h2⟩ := take_eq_append_split (A := [c]) (B := A) rfl hlay
    have hc : chAt s pos = c := chAt_of_take_one h1
    simp only [List.all_cons, Bool.and_eq_true] at hall
    simp only [List.length_cons] at hlen hfuel
    rw [rts0_plain_step f s.length start attr (by rw [hc]; exact hall.1) (by omega)]
    rw [ih f start (pos + 1) attr h2 hall.2 (by omega) (by omega)]
    rw [List.length_cons,
      show f + 1 - (A.length + 1) = f - A.length from by omega,
      show pos + (A.length + 1) = pos + 1 + A.length from by omega]

theorem rts1_nonColon_step {s : List Char} {pos : Nat} (fuel len start : Nat)
    (dom : List Char) (attr : Bool)
    (hc : ¬ chAt s pos = ':') (hlt : pos + 1 < len) :
    rts1 (fuel + 1) s len start pos dom attr = rts1 fuel s len start (pos + 1) dom attr := by
  simp only [rts1]
  rw [if_neg hc, if_pos hlt]

theorem rts1_scan_block {s : List Char} :
    ∀ (A : List Char) (fuel start pos : Nat) (dom : List Char) (attr : Bool),
      (s.drop pos).take A.length = A →
      (∀ c ∈ A, ¬ c = ':') →
      pos + A.length < s.length →
      A.length ≤ fuel →
      rts1 fuel s s.length start pos dom attr =
        rts1 (fuel - A.length) s s.length start (pos + A.length) dom attr := by
  intro A
  induction A with
  | nil => intro fuel start pos dom attr _ _ _ _; simp
  | cons c A ih =>
    intro fuel start pos dom attr hlay hall hlen hfuel
    obtain ⟨f, rfl⟩ : ∃ f, fuel = f + 1 := ⟨fuel - 1, by simp at hfuel ⊢; omega⟩
    obtain ⟨h1, h2⟩ := take_eq_append_split (A := [c]) (B := A) rfl hlay
    have hc : chAt s pos = c := chAt_of_take_one h1
    simp only [List.length_cons] at hlen hfuel
    rw [rts1_nonColon_step f s.length start dom attr
      (by rw [hc]; exact hall c (List.mem_cons_self c A)) (by omega)]
    rw [ih f start (pos + 1) dom attr h2
      (fun x hx => hall x (List.mem_cons_of_mem c hx)) (by omega) (by omega)]
    rw [List.length_cons,
      show f + 1 - (A.length + 1) = f - A.length from by omega,
      show pos + (A.length + 1) = pos + 1 + A.length from by omega]

theorem rts1_colon_step {s : List Char} {pos : Nat} (fuel len start : Nat)
    (dom : List Char) (attr : Bool) (hc : chAt s pos = ':') :
    rts1 (fuel + 1) s len start pos dom attr =
      (TldNode.node dom attr
        (rtsChildren fuel s len (atoiNat ((s.drop (start + 1)).take (pos - start - 1))) pos).1,
        (rtsChildren fuel s len (atoiNat ((s.drop (start + 1)).take (pos - start - 1))) pos).2
          + 1) := by
  simp only [rts1]
  rw [if_pos hc]

theorem rtsChildren_zero (fuel : Nat) (s : List Char) (len pos : Nat) :
    rtsChildren fuel s len 0 pos = ([], pos) := by
  cases fuel <;> simp [rtsChildren]

theorem rtsChildren_succ (fuel : Nat) (s : List Char) (len num pos : Nat) :
    rtsChildren (fuel + 1) s len (num + 1) pos =
      ((rts0 fuel s len (pos + 1) (pos + 1) false).1 ::
          (rtsChildren fuel s len num (rts0 fuel s len (pos + 1) (pos + 1) false).2).1,
        (rtsChildren fuel s len num (rts0 fuel s len (pos + 1) (pos + 1) false).2).2) := by
  simp only [rtsChildren]

theorem label_lenc (attr : Bool) (bang : List Char)
    (hbang : bang = if attr then ['!'] else []) (pos dlen : Nat) :
    (if attr then pos + dlen + bang.length - pos - 1
      else pos + dlen + bang.length - pos) = dlen := by
  cases attr with
  | false =>
    have hb : bang = [] := by simp [hbang]
    subst hb
    simp
  | true =>
    have hb : bang = ['!'] := by simp [hbang]
    subst hb
    simp
    omega

/-- Scanning a well-formed label (and its optional `!` marker) from state 0
leaves the machine at the following structural character, with `attr`
recording whether the marker was seen. -/
theorem rts0_label_phase {s : List Char} (dom : List Char) (attr : Bool) (bang : List Char)
    (hbang : bang = if attr then ['!'] else [])
    (fuel pos : Nat)
    (hp1 : (s.drop pos).take dom.length = dom)
    (hp3 : (s.drop (pos + dom.length)).take bang.length = bang)
    (hall : dom.all plainChar = true)
    (hlen : pos + dom.length + bang.length < s.length)
    (hfuel : dom.length + bang.length + 1 ≤ fuel) :
    rts0 fuel s s.length pos pos false =
      rts0 (fuel - (dom.length + bang.length)) s s.length pos
        (pos + dom.length + bang.length) attr := by
  cases attr with
  | false =>
    have hb : bang = [] := by simp [hbang]
    subst hb
    have h := rts0_scan_block dom fuel pos pos false hp1 hall (by simpa using hlen)
      (by omega)
    simpa using h
  | true =>
    have hb : bang = ['!'] := by simp [hbang]
    subst hb
    simp only [List.length_singleton] at hlen hfuel ⊢
    have h := rts0_scan_block dom fuel pos pos false hp1 hall (by omega) (by omega)
    rw [h]
    have hbangc : chAt s (pos + dom.length) = '!' := chAt_of_take_one (by simpa using hp3)
    obtain ⟨g, hg⟩ : ∃ g, fuel - dom.length = g + 1 := ⟨fuel - dom.length - 1, by omega⟩
    rw [hg, rts0_bang_step g s.length pos false hbangc (by omega)]
    rw [show fuel - (dom.length + 1) = g from by omega]

/-- Specification of parsing one encoded node located mid-string: the call
consumes exactly the node's encoding and returns the cursor immediately
after it (the position of the structural character that follows). -/
def nodeCorrect (t : TldNode) : Prop :=
  wfNode t = true →
  ∀ (s : List Char) (pos fuel : Nat),
    (s.drop pos).take (serNode t).length = serNode t →
    (chAt s (pos + (serNode t).length) = ',' ∨ chAt s (pos + (serNode t).length) = ')') →
    2 * (serNode t).length + 2 ≤ fuel →
    readTldString fuel s s.length pos = (t, pos + (serNode t).length)

/-- Specification of the children loop on an encoded sibling list starting
one past `pos` and followed by a structural character. -/
def childrenCorrect (cs : List TldNode) : Prop :=
  cs ≠ [] →
  wfChildren cs = true →
  ∀ (s : List Char) (pos fuel : Nat),
    (s.drop (pos + 1)).take (serChildren cs).length = serChildren cs →
    (chAt s (pos + 1 + (serChildren cs).length) = ',' ∨
      chAt s (pos + 1 + (serChildren cs).length) = ')') →
    2 * (serChildren cs).length + 3 ≤ fuel →
    rtsChildren fuel s s.length cs.length pos = (cs, pos + 1 + (serChildren cs).length)

/-- Parsing a well-formed encoded node (or sibling list) located mid-string
consumes exactly its encoding: proved for all nodes by strong induction on
the length of the encoding. -/
theorem parse_ser_master :
    ∀ N : Nat,
      (∀ t : TldNode, (serNode t).length ≤ N → nodeCorrect t) ∧
      (∀ cs : List TldNode, (serChildren cs).length ≤ N → childrenCorrect cs) := by
  intro N
  induction N using Nat.strong_induction_on with
  | _ N ihN =>
    have nodePart : ∀ t : TldNode, (serNode t).length ≤ N → nodeCorrect t := by
      intro t hlenN
      obtain ⟨dom, attr, cs⟩ := t
      unfold nodeCorrect
      intro hwf s pos fuel hlay hdelim hfuel
      obtain ⟨bang, hbang⟩ : ∃ b : List Char, b = if attr then ['!'] else [] := ⟨_, rfl⟩
      have hser : serNode (TldNode.node dom attr cs) =
          dom ++ (bang ++ serChildBlock cs) := by
        rw [serNode_eq, ← hbang, List.append_assoc]
      simp only [wfNode, Bool.and_eq_true] at hwf
      have hbangL : bang.length ≤ 1 := by
        cases attr <;> simp [hbang]
      have hLeq : (serNode (TldNode.node dom attr cs)).length =
          dom.length + (bang.length + (serChildBlock cs).length) := by
        rw [hser]
        simp
      have hfit : pos + (serNode (TldNode.node dom attr cs)).length < s.length := by
        rcases hdelim with h | h
        · exact chAt_lt_length h (by decide)
        · exact chAt_lt_length h (by decide)
      obtain ⟨hp1, hp2⟩ := take_eq_append_split hser hlay
      obtain ⟨hp3, hp4⟩ := take_eq_append_split
        (rfl : bang ++ serChildBlock cs = bang ++ serChildBlock cs) hp2
      have hlabel := rts0_label_phase dom attr bang hbang fuel pos hp1 hp3 hwf.1
        (by omega) (by omega)
      cases cs with
      | nil =>
        have hblockL : (serChildBlock ([] : List TldNode)).length = 0 := rfl
        obtain ⟨g, hg⟩ : ∃ g, fuel - (dom.length + bang.length) = g + 1 :=
          ⟨fuel - (dom.length + bang.length) - 1, by omega⟩
        have hdel : chAt s (pos + dom.length + bang.length) = ',' ∨
            chAt s (pos + dom.length + bang.length) = ')' := by
          rw [show pos + dom.length + bang.length =
            pos + (serNode (TldNode.node dom attr [])).length from by omega]
          exact hdelim
        rw [show readTldString fuel s s.length pos = rts0 fuel s s.length pos pos false
            from rfl,
          hlabel, hg, rts0_delim_ret g s.length pos attr hdel,
          label_lenc attr bang hbang pos dom.length, hp1,
          show pos + dom.length + bang.length =
            pos + (serNode (TldNode.node dom attr [])).length from by omega]
      | cons c rest =>
        have hblock : serChildBlock (c :: rest) =
            ['('] ++ (natDigits (c :: rest).length ++
              ([':'] ++ (serChildren (c :: rest) ++ [')']))) := rfl
        have hblockL : (serChildBlock (c :: rest)).length =
            1 + ((natDigits (c :: rest).length).length +
              (1 + ((serChildren (c :: rest)).length + 1))) := by
          rw [hblock]
          simp only [List.length_append, List.length_cons, List.length_singleton,
            List.length_nil]
        rw [hblock] at hp4
        obtain ⟨hq1, hq2⟩ := take_eq_append_split
          (rfl : ['('] ++ (natDigits (c :: rest).length ++
              ([':'] ++ (serChildren (c :: rest) ++ [')']))) = _) hp4
        simp only [List.length_singleton] at hq1 hq2
        have hlp : chAt s (pos + dom.length + bang.length) = '(' := chAt_of_take_one hq1
        obtain ⟨hq3, hq4⟩ := take_eq_append_split
          (rfl : natDigits (c :: rest).length ++
              ([':'] ++ (serChildren (c :: rest) ++ [')'])) = _) hq2
        obtain ⟨hq5, hq6⟩ := take_eq_append_split
          (rfl : [':'] ++ (serChildren (c :: rest) ++ [')']) = _) hq4
        simp only [List.length_singleton] at hq5 hq6
        have hcolon : chAt s (pos + dom.length + bang.length + 1 +
            (natDigits (c :: rest).length).length) = ':' := chAt_of_take_one hq5
        obtain ⟨hq7, hq8⟩ := take_eq_append_split
          (rfl : serChildren (c :: rest) ++ [')'] = _) hq6
        simp only [List.length_singleton] at hq7 hq8
        have hrp : chAt s (pos + dom.length + bang.length + 1 +
            (natDigits (c :: rest).length).length + 1 +
            (serChildren (c :: rest)).length) = ')' := chAt_of_take_one hq8
        have hdigs : ∀ x ∈ natDigits (c :: rest).length, ¬ x = ':' :=
          fun x hx => isDigit_ne_colon (natDigits_all_digits _ x hx)
        obtain ⟨g1, hg1⟩ : ∃ g, fuel - (dom.length + bang.length) = g + 1 :=
          ⟨fuel - (dom.length + bang.length) - 1, by omega⟩
        obtain ⟨g2, hg2⟩ : ∃ g, g1 - (natDigits (c :: rest).length).length = g + 1 :=
          ⟨g1 - (natDigits (c :: rest).length).length - 1, by omega⟩
        have hkids := (ihN (N - 1) (by omega)).2 (c :: rest) (by omega) (by simp)
          hwf.2 s (pos + dom.length + bang.length + 1 +
            (natDigits (c :: rest).length).length) g2 hq7 (Or.inr hrp) (by omega)
        rw [show readTldString fuel s s.length pos = rts0 fuel s s.length pos pos false
            from rfl,
          hlabel, hg1,
          rts0_lparen_step g1 s.length pos attr hlp (by omega),
          label_lenc attr bang hbang pos dom.length, hp1,
          rts1_scan_block (natDigits (c :: rest).length) g1
            (pos + dom.length + bang.length) (pos + dom.length + bang.length + 1)
            dom attr hq3 hdigs (by omega) (by omega),
          hg2,
          rts1_colon_step g2 s.length (pos + dom.length + bang.length) dom attr hcolon,
          show pos + dom.length + bang.length + 1 +
              (natDigits (c :: rest).length).length - (pos + dom.length + bang.length) - 1
            = (natDigits (c :: rest).length).length from by omega,
          hq3, atoiNat_natDigits, hkids,
          show pos + (serNode (TldNode.node dom attr (c :: rest))).length =
            pos + dom.length + bang.length + 1 + (natDigits (c :: rest).length).length +
              1 + (serChildren (c :: rest)).length + 1 from by omega]
    have childPart : ∀ cs : List TldNode, (serChildren cs).length ≤ N →
        childrenCorrect cs := by
      intro cs
      induction cs with
      | nil =>
        intro _
        unfold childrenCorrect
        intro hne
        exact absurd rfl hne
      | cons c rest ihr =>
        intro hlenC
        unfold childrenCorrect
        intro _ hwf s pos fuel hlay hdelim hfuel
        simp only [wfChildren, Bool.and_eq_true] at hwf
        obtain ⟨f, hf⟩ : ∃ f, fuel = f + 1 := ⟨fuel - 1, by omega⟩
        cases rest with
        | nil =>
          have hsc : serChildren [c] = serNode c := by simp [serChildren]
          rw [hsc] at hlay hdelim hfuel hlenC
          have hchild := nodePart c hlenC hwf.1 s (pos + 1) f hlay hdelim (by omega)
          rw [hf]
          simp only [List.length_cons, List.length_nil]
          rw [rtsChildren_succ]
          simp only [show rts0 f s s.length (pos + 1) (pos + 1) false =
              readTldString f s s.length (pos + 1) from rfl, hchild, rtsChildren_zero]
          rw [hsc]
        | cons c2 rest2 =>
          have hsc : serChildren (c :: c2 :: rest2) =
              serNode c ++ (',' :: serChildren (c2 :: rest2)) := by
            simp [serChildren]
          have hscl := congrArg List.length hsc
          simp only [List.length_append, List.length_cons] at hscl
          rw [hsc] at hlay
          obtain ⟨hc1, hc2⟩ := take_eq_append_split
            (rfl : serNode c ++ (',' :: serChildren (c2 :: rest2)) = _) hlay
          obtain ⟨hm1, hm2⟩ := take_eq_append_split
            (List.singleton_append.symm :
              (',' :: serChildren (c2 :: rest2) : List Char) =
                [','] ++ serChildren (c2 :: rest2)) hc2
          simp only [List.length_singleton] at hm1 hm2
          have hcomma : chAt s (pos + 1 + (serNode c).length) = ',' := chAt_of_take_one hm1
          have hchild := nodePart c (by omega) hwf.1 s (pos + 1) f hc1 (Or.inl hcomma)
            (by omega)
          have hdelim2 : chAt s (pos + 1 + (serNode c).length + 1 +
                (serChildren (c2 :: rest2)).length) = ',' ∨
              chAt s (pos + 1 + (serNode c).length + 1 +
                (serChildren (c2 :: rest2)).length) = ')' := by
            rw [show pos + 1 + (serNode c).length + 1 + (serChildren (c2 :: rest2)).length =
              pos + 1 + (serChildren (c :: c2 :: rest2)).length from by omega]
            exact hdelim
          have hrest := ihr (by omega) (by simp) hwf.2 s (pos + 1 + (serNode c).length) f
            hm2 hdelim2 (by omega)
          rw [hf]
          simp only [List.length_cons] at hrest ⊢
          rw [rtsChildren_succ]
          simp only [show rts0 f s s.length (pos + 1) (pos + 1) false =
              readTldString f s s.length (pos + 1) from rfl, hchild, hrest]
          rw [show pos + 1 + (serChildren (c :: c2 :: rest2)).length =
            pos + 1 + (serNode c).length + 1 + (serChildren (c2 :: rest2)).length
            from by omega]
    exact ⟨nodePart, childPart⟩

/-- Claim C7: for every well-formed encoded rule node located in the string
(followed by a structural separator, as every non-root node is), one call to
the recursive-descent parse function consumes exactly that one node — its
label, optional `!` marker, and optional parenthesized child block — and
returns the cursor position immediately after the node's closing delimiter
(its final encoded character, the `)` of the child block when present):
that is, the position of the separator that follows the node. -/
theorem readTldString_one_node (t : TldNode) (s : List Char) (pos fuel : Nat)
    (hwf : wfNode t = true)
    (hlay : (s.drop pos).take (serNode t).length = serNode t)
    (hdelim : chAt s (pos + (serNode t).length) = ',' ∨
      chAt s (pos + (serNode t).length) = ')')
    (hfuel : 2 * (serNode t).length + 2 ≤ fuel) :
    readTldString fuel s s.length pos = (t, pos + (serNode t).length) :=
  (parse_ser_master (serNode t).length).1 t le_rfl hwf s pos fuel hlay hdelim hfuel

/-- The `ck → * → !www` rule node, whose encoding `ck(1:*(1:www!))` exercises
nesting, counts and the exception marker. -/
def ckRuleNode : TldNode :=
  TldNode.node (toL "ck") false
    [TldNode.node (toL "*") false [TldNode.node (toL "www") true []]]

theorem readTldString_one_node_witness :
    readTldString 32 (toL "ck(1:*(1:www!)),x") (toL "ck(1:*(1:www!)),x").length 0 =
      (ckRuleNode, 0 + (serNode ckRuleNode).length) :=
  readTldString_one_node ckRuleNode (toL "ck(1:*(1:www!)),x") 0 32
    (by decide) (by decide) (by decide) (by decide)

/-- Claim C8: a well-formed encoded node carrying the exception marker — its
encoded label text is `base` followed by `!` immediately before the next
structural delimiter (the separator after the node, or the `(` of its child
block) — parses to a node marked as an exception (`attr` points at `THIS`,
modelled `attr = true`) whose stored label text is `base`, with the trailing
`!` excluded. -/
theorem readTldString_exception_label (base : List Char) (cs : List TldNode)
    (s : List Char) (pos fuel : Nat)
    (hwf : wfNode (TldNode.node base true cs) = true)
    (hlay : (s.drop pos).take (serNode (TldNode.node base true cs)).length =
      serNode (TldNode.node base true cs))
    (hdelim : chAt s (pos + (serNode (TldNode.node base true cs)).length) = ',' ∨
      chAt s (pos + (serNode (TldNode.node base true cs)).length) = ')')
    (hfuel : 2 * (serNode (TldNode.node base true cs)).length + 2 ≤ fuel) :
    serNode (TldNode.node base true cs) = base ++ '!' :: serChildBlock cs ∧
    readTldString fuel s s.length pos =
      (TldNode.node base true cs,
        pos + (serNode (TldNode.node base true cs)).length) :=
  ⟨by rw [serNode_eq]; simp,
    (parse_ser_master (serNode (TldNode.node base true cs)).length).1 _ le_rfl hwf
      s pos fuel hlay hdelim hfuel⟩

theorem readTldString_exception_label_witness :
    serNode (TldNode.node (toL "www") true []) =
      toL "www" ++ '!' :: serChildBlock [] ∧
    readTldString 10 (toL "www!)") (toL "www!)").length 0 =
      (TldNode.node (toL "www") true [],
        0 + (serNode (TldNode.node (toL "www") true [])).length) :=
  readTldString_exception_label (toL "www") [] (toL "www!)") 0 10
    (by decide) (by decide) (by decide) (by decide)
